import Mathlib

/-!
Verification of the `partial_ref` capability algebra.

The library (src/partial_ref/src/lib.rs and src/partial_ref_derive/src/lib.rs)
implements compile-time capability lists over record parts.  This file embeds
the type-level algebra shallowly:

* the Rust marker types built with the `part!` macro and `Nested<Outer, Inner>`
  become the inductive `Part`;
* a capability-list type `Mut<P, R>` / `Const<P, R>` / `Ref<'a, T>` becomes a
  `List (Part × Mode)` whose head is the outermost wrapper;
* the unsafe trait impls of `PluckConst`, `PluckMut` and `HasSubset` become
  inductive relations with one constructor per impl (the `IndexHere`,
  `IndexNext` and `IndexSplit` instances);
* the derive-generated `HasPart::part_ptr` / `part_ptr_mut` bodies and the
  nested composition impl become the address functions `partPtr` / `partPtrMut`
  over field paths.

Trait bounds of the form `Reference::Target: HasPart<...>` and the lifetime
bookkeeping are elided: they constrain when the Rust types are well formed but
do not change which capability lists the impls compute.
-/

namespace PartRefLib

/-- A part identifier.  `base n` models a marker type declared with the `part!`
macro of src/partial_ref/src/macros.rs; `nested o i` models the
`Nested<Outer, Inner>` type of src/partial_ref/src/lib.rs. -/
inductive Part : Type
  | base (n : Nat)
  | nested (outer inner : Part)
deriving DecidableEq

/-- Access mode of one capability entry: `Mut` is exclusive, `Const` shared,
mirroring the `Mut<Part, Reference>` and `Const<Part, Reference>` wrappers. -/
inductive Mode : Type
  | Mut
  | Const
deriving DecidableEq

/-- A capability-list type.  The Rust type `Mut<P, Const<Q, Ref<'a, T>>>` is
the list `[(P, Mut), (Q, Const)]`: the head is the outermost wrapper, and the
empty list is `Ref<'a, T>`. -/
abbrev CapList : Type := List (Part × Mode)

/-- The parts of a capability list, outermost first. -/
def capParts (H : CapList) : List Part := H.map Prod.fst

/-- Structural size of a part tree, used for termination and to show a part is
never nested strictly inside itself. -/
def psize : Part → Nat
  | .base _ => 1
  | .nested o i => psize o + psize i + 1

/-- `containsSpine c p` models the `ContainsNestedPart` trait of
src/partial_ref/src/lib.rs: a part contains itself (`IndexHere` impl), and it
contains `Nested<Outer, Inner>` whenever it contains `Outer` (`IndexNext`
impl).  Thus `c` lies on the outer spine of `p`. -/
def containsSpine (c : Part) : Part → Bool
  | .base n => decide (c = Part.base n)
  | .nested o i => decide (c = Part.nested o i) || containsSpine c o

/-- Two parts overlap when one lies on the other's outer spine; in particular
every part overlaps itself. -/
def overlapP (a b : Part) : Bool := containsSpine a b || containsSpine b a

/-- A part list is well formed when its parts are pairwise non-overlapping.
This is the §3 precondition on handles built by `from_raw`: the claimed
capability list never holds the same region twice. -/
def wfParts (l : List Part) : Prop := l.Pairwise (fun a b => overlapP a b = false)

/-- A capability list is well formed when its parts are. -/
def wfCaps (H : CapList) : Prop := wfParts (capParts H)

instance wfPartsDecidable (l : List Part) : Decidable (wfParts l) :=
  inferInstanceAs (Decidable (l.Pairwise (fun a b => overlapP a b = false)))

instance wfCapsDecidable (H : CapList) : Decidable (wfCaps H) :=
  inferInstanceAs (Decidable (wfParts (capParts H)))

/-- The globally declared shape of a base part: `abstract` for `AbstractPart`
(`type Ptr = ()`), `fieldTy r` for `Field<FieldType>` where `r` is the record
identifier of the field's type when that type is itself a reference target. -/
inductive PKind : Type
  | abstract
  | fieldTy (r : Option Nat)

/-- The ambient declarations: per base part its shape, per record type the
declared parts in declaration order (struct-level abstract parts first, then
field parts, as the derive in src/partial_ref_derive/src/lib.rs collects
them), and per (record, base part) the index of the member the generated
`part_ptr` takes the address of. -/
structure Env : Type where
  partKind : Nat → PKind
  recParts : Nat → List Part
  memberIdx : Nat → Nat → Nat

/-- The record type of a part's field, when it has one: for a base part its
declared field record, for `Nested<Outer, Inner>` the inner part's
(`type PartType = Inner::PartType` in the `Part` impl for `Nested`). -/
def partFieldRec (env : Env) : Part → Option Nat
  | .base n =>
    match env.partKind n with
    | .abstract => none
    | .fieldTy r => r
  | .nested _ i => partFieldRec env i

/-- Environment well-formedness: no record declares the same part twice. -/
def wfEnv (env : Env) : Prop := ∀ r : Nat, (env.recParts r).Nodup

/-- `SplitIntoParts::ResultMut` as generated by the derive: every declared part
of the field's record type, nested inside the containing part, wrapped `Mut`
around the tail reference.  The derive wraps in declaration order, so the last
declared part ends outermost; the fold reproduces that. -/
def splitMutList (cp : Part) (ps : List Part) (rest : CapList) : CapList :=
  ps.foldl (fun acc p => (Part.nested cp p, Mode.Mut) :: acc) rest

/-- The `PluckConst` trait: `PluckConst env p H H'` holds when the impls of
src/partial_ref/src/lib.rs derive `H: PluckConst<'a, p, Index>` with
`Remainder = H'`.  One constructor per impl:
`hereConst`/`hereMut` are the two `IndexHere` impls (a plucked entry stays in
the remainder, downgraded to `Const` when it was `Mut`), `skipConst`/`skipMut`
the two `IndexNext` impls, and `splitMut`/`splitConst` the two `IndexSplit`
impls that pluck a constant nested subpart out of a containing entry. -/
inductive PluckConst (env : Env) : Part → CapList → CapList → Prop
  | hereConst (p : Part) (rest : CapList) :
      PluckConst env p ((p, Mode.Const) :: rest) ((p, Mode.Const) :: rest)
  | hereMut (p : Part) (rest : CapList) :
      PluckConst env p ((p, Mode.Mut) :: rest) ((p, Mode.Const) :: rest)
  | skipConst (p q : Part) (rest rem : CapList) :
      PluckConst env p rest rem →
      PluckConst env p ((q, Mode.Const) :: rest) ((q, Mode.Const) :: rem)
  | skipMut (p q : Part) (rest rem : CapList) :
      PluckConst env p rest rem →
      PluckConst env p ((q, Mode.Mut) :: rest) ((q, Mode.Mut) :: rem)
  | splitMut (o i c : Part) (s : Nat) (rest rem : CapList) :
      containsSpine c o = true →
      partFieldRec env c = some s →
      PluckConst env (Part.nested o i) (splitMutList c (env.recParts s) rest) rem →
      PluckConst env (Part.nested o i) ((c, Mode.Mut) :: rest) rem
  | splitConst (o i c : Part) (s : Nat) (rest rem : CapList) :
      containsSpine c o = true →
      partFieldRec env c = some s →
      PluckConst env (Part.nested o i) (splitMutList c (env.recParts s) rest) rem →
      PluckConst env (Part.nested o i) ((c, Mode.Const) :: rest) ((c, Mode.Const) :: rest)

/-- The `PluckMut` trait: `PluckMut env p H H'` holds when the impls derive
`H: PluckMut<'a, p, Index>` with `Remainder = H'`.  `here` is the `IndexHere`
impl (the plucked mutable entry is removed from the remainder), `skipConst` and
`skipMut` the `IndexNext` impls, `split` the `IndexSplit` impl (there is no
mutable pluck out of a `Const` head). -/
inductive PluckMut (env : Env) : Part → CapList → CapList → Prop
  | here (p : Part) (rest : CapList) :
      PluckMut env p ((p, Mode.Mut) :: rest) rest
  | skipConst (p q : Part) (rest rem : CapList) :
      PluckMut env p rest rem →
      PluckMut env p ((q, Mode.Const) :: rest) ((q, Mode.Const) :: rem)
  | skipMut (p q : Part) (rest rem : CapList) :
      PluckMut env p rest rem →
      PluckMut env p ((q, Mode.Mut) :: rest) ((q, Mode.Mut) :: rem)
  | split (o i c : Part) (s : Nat) (rest rem : CapList) :
      containsSpine c o = true →
      partFieldRec env c = some s →
      PluckMut env (Part.nested o i) (splitMutList c (env.recParts s) rest) rem →
      PluckMut env (Part.nested o i) ((c, Mode.Mut) :: rest) rem

/-- The `HasSubset` trait: `HasSubset env H R rem` holds when the reference
with capability list `R` is a subset of the one with list `H`, leaving
`Remainder = rem`.  The empty subset leaves `H` itself; a `Const` (resp. `Mut`)
head of `R` is plucked from `H` and the tail of `R` is matched against the
pluck's remainder. -/
inductive HasSubset (env : Env) : CapList → CapList → CapList → Prop
  | nil (H : CapList) : HasSubset env H [] H
  | consConst (p : Part) (H H1 R rem : CapList) :
      PluckConst env p H H1 →
      HasSubset env H1 R rem →
      HasSubset env H ((p, Mode.Const) :: R) rem
  | consMut (p : Part) (H H1 R rem : CapList) :
      PluckMut env p H H1 →
      HasSubset env H1 R rem →
      HasSubset env H ((p, Mode.Mut) :: R) rem

/-- The first entry of the list whose part is `p`, downgraded to `Const`;
all other entries untouched. -/
def downgradeFirst (p : Part) : CapList → CapList
  | [] => []
  | (q, m) :: rest =>
    if q = p then (q, Mode.Const) :: rest else (q, m) :: downgradeFirst p rest

/-- The list with the first entry whose part is `p` removed; all other entries
untouched. -/
def eraseFirst (p : Part) : CapList → CapList
  | [] => []
  | (q, m) :: rest => if q = p then rest else (q, m) :: eraseFirst p rest

/-- The remainder computed by narrowing a request list against a held list,
entry by entry: a shared request downgrades its entry, an exclusive request
removes it. -/
def applyReq : CapList → CapList → CapList
  | [], H => H
  | (p, Mode.Const) :: R, H => applyReq R (downgradeFirst p H)
  | (p, Mode.Mut) :: R, H => applyReq R (eraseFirst p H)

/-- A raw address, modeled as the access path of member indices from the
record's own address. -/
abbrev Addr : Type := List Nat

/-- `HasPart::part_ptr` resolved against record `r` at address `a`.  For a
declared field part the derive-generated body takes the address of the member
(`addr_of!((*ptr).member)`); for an abstract part the generated body is
`unreachable!()`, modeled as `none`; for `Nested<Outer, Inner>` the library
impl resolves the outer part on the record and the inner part on the outer
field's own record type. -/
def partPtr (env : Env) (r : Nat) (p : Part) (a : Addr) : Option Addr :=
  match p with
  | .base n =>
    match env.partKind n with
    | .abstract => none
    | .fieldTy _ =>
      if Part.base n ∈ env.recParts r then some (a ++ [env.memberIdx r n]) else none
  | .nested o i =>
    match partFieldRec env o, partPtr env r o a with
    | some s, some a2 => partPtr env s i a2
    | _, _ => none

/-- `HasPart::part_ptr_mut`: the generated body takes `addr_of_mut!` of the
same member, so it computes the same path as `partPtr`. -/
def partPtrMut (env : Env) (r : Nat) (p : Part) (a : Addr) : Option Addr :=
  match p with
  | .base n =>
    match env.partKind n with
    | .abstract => none
    | .fieldTy _ =>
      if Part.base n ∈ env.recParts r then some (a ++ [env.memberIdx r n]) else none
  | .nested o i =>
    match partFieldRec env o, partPtrMut env r o a with
    | some s, some a2 => partPtrMut env s i a2
    | _, _ => none

/-- Whether a part's shape is abstract: a base `AbstractPart`, or a nested part
whose inner shape is abstract (`Nested` has `PartType = Inner::PartType`). -/
def isAbstractP (env : Env) : Part → Bool
  | .base n =>
    match env.partKind n with
    | .abstract => true
    | .fieldTy _ => false
  | .nested _ i => isAbstractP env i

/-- A part is a plain declared tag, not a `Nested` composition. -/
def isBase : Part → Bool
  | .base _ => true
  | .nested _ _ => false

/-- The capability list of `(&T).into_partial_ref()` as generated by the
derive: starting from `Ref`, wrap `Const<part, _>` for every struct-level
abstract part and then every field part, in declaration order (so the last
declared part ends outermost). -/
def intoRefConstCaps (absParts typedParts : List Part) : CapList :=
  (absParts ++ typedParts).foldl (fun acc p => (p, Mode.Const) :: acc) []

/-- The capability list of `(&mut T).into_partial_ref()`: the same wrapping
with `Mut`. -/
def intoRefMutCaps (absParts typedParts : List Part) : CapList :=
  (absParts ++ typedParts).foldl (fun acc p => (p, Mode.Mut) :: acc) []

/-- A capability handle: one machine address, with the capability list kept at
the type level only, mirroring the `repr(transparent)` structs `Ref`, `Mut`
and `Const` (a single pointer plus `PhantomData`). -/
structure PRef (caps : CapList) : Type where
  ptr : Addr

/-- `PartialRef::from_raw`: build a handle of any claimed capability list from
a raw address. -/
def fromRaw (caps : CapList) (a : Addr) : PRef caps := ⟨a⟩

/-- `PartialRef::get_raw`: the handle's underlying raw address. -/
def getRaw {caps : CapList} (h : PRef caps) : Addr := h.ptr

/-- `PartialRef::borrow`: re-borrow a subset, `BorrowedRef::from_raw(self.get_raw())`. -/
def borrow {env : Env} {H B rem : CapList} (h : PRef H)
    (_ : HasSubset env H B rem) : PRef B :=
  fromRaw B (getRaw h)

/-- `PartialRef::split_borrow`: the subset handle and the remainder handle,
both built by `from_raw` from the same raw address. -/
def splitBorrow {env : Env} {H B rem : CapList} (h : PRef H)
    (_ : HasSubset env H B rem) : PRef B × PRef rem :=
  (fromRaw B (getRaw h), fromRaw rem (getRaw h))

/-- `PartialRef::part`: the reference produced by resolving the field part on
the raw address (`Const::<P, Ref>::from_raw(self.get_raw()).get_part()`,
whose body dereferences `Target::part_ptr`).  The returned reference is
modeled by the resolved address. -/
def partAcc (env : Env) (tgt : Nat) (p : Part) {H rem : CapList} (h : PRef H)
    (_ : PluckConst env p H rem) : Option Addr :=
  partPtr env tgt p (getRaw h)

/-- `PartialRef::part_mut`: the mutable reference, resolved by `part_ptr_mut`. -/
def partMutAcc (env : Env) (tgt : Nat) (p : Part) {H rem : CapList} (h : PRef H)
    (_ : PluckMut env p H rem) : Option Addr :=
  partPtrMut env tgt p (getRaw h)

/-- `PartialRef::split_part`: the field reference together with the pluck's
remainder handle built by `from_raw` from the same raw address. -/
def splitPartAcc (env : Env) (tgt : Nat) (p : Part) {H rem : CapList} (h : PRef H)
    (_ : PluckConst env p H rem) : Option Addr × PRef rem :=
  (partPtr env tgt p (getRaw h), fromRaw rem (getRaw h))

/-- `PartialRef::split_part_mut`: the mutable field reference together with the
pluck's remainder handle. -/
def splitPartMutAcc (env : Env) (tgt : Nat) (p : Part) {H rem : CapList} (h : PRef H)
    (_ : PluckMut env p H rem) : Option Addr × PRef rem :=
  (partPtrMut env tgt p (getRaw h), fromRaw rem (getRaw h))

/-- A trivial environment for concrete instances: every base part is a field
part of a non-record field type, no record declares parts. -/
def env0 : Env where
  partKind := fun _ => PKind.fieldTy none
  recParts := fun _ => []
  memberIdx := fun _ _ => 0

/-- A small concrete environment: record `0` declares the field part `base 0`
(whose field type is record `1`) and the abstract part `base 2`; record `1`
declares the field part `base 1` (a plain field).  Member indices equal the
part numbers. -/
def env1 : Env where
  partKind := fun n =>
    if n = 2 then PKind.abstract
    else if n = 0 then PKind.fieldTy (some 1)
    else PKind.fieldTy none
  recParts := fun r =>
    if r = 0 then [Part.base 0, Part.base 2]
    else if r = 1 then [Part.base 1]
    else []
  memberIdx := fun _ n => n

/-! Basic facts about the spine order on parts. -/

theorem containsSpine_refl (p : Part) : containsSpine p p = true := by
  cases p <;> simp [containsSpine]

theorem psize_pos (p : Part) : 0 < psize p := by
  cases p <;> simp [psize]

theorem containsSpine_psize {c p : Part} (h : containsSpine c p = true) :
    psize c ≤ psize p := by
  induction p with
  | base n =>
    simp only [containsSpine, decide_eq_true_eq] at h
    subst h; exact le_refl _
  | nested o i iho _ =>
    simp only [containsSpine, Bool.or_eq_true, decide_eq_true_eq] at h
    rcases h with h | h
    · subst h; exact le_refl _
    · have := iho h
      simp only [psize]
      omega

theorem containsSpine_trans {a b p : Part} (hab : containsSpine a b = true)
    (hbp : containsSpine b p = true) : containsSpine a p = true := by
  induction p with
  | base n =>
    simp only [containsSpine, decide_eq_true_eq] at hbp
    subst hbp; exact hab
  | nested o i iho _ =>
    simp only [containsSpine, Bool.or_eq_true, decide_eq_true_eq] at hbp ⊢
    rcases hbp with h | h
    · subst h
      simpa [containsSpine] using hab
    · exact Or.inr (iho h)

theorem containsSpine_chain {a b p : Part} (hap : containsSpine a p = true)
    (hbp : containsSpine b p = true) :
    containsSpine a b = true ∨ containsSpine b a = true := by
  induction p with
  | base n =>
    simp only [containsSpine, decide_eq_true_eq] at hap hbp
    subst hap; subst hbp
    exact Or.inl (containsSpine_refl _)
  | nested o i iho _ =>
    simp only [containsSpine, Bool.or_eq_true, decide_eq_true_eq] at hap hbp
    rcases hap with rfl | hap
    · rcases hbp with rfl | hbp
      · exact Or.inl (containsSpine_refl _)
      · refine Or.inr ?_
        simp only [containsSpine, Bool.or_eq_true, decide_eq_true_eq]
        exact Or.inr hbp
    · rcases hbp with rfl | hbp
      · refine Or.inl ?_
        simp only [containsSpine, Bool.or_eq_true, decide_eq_true_eq]
        exact Or.inr hap
      · exact iho hap hbp

theorem containsSpine_nested_outer (c x : Part) :
    containsSpine c (Part.nested c x) = true := by
  simp only [containsSpine, Bool.or_eq_true, decide_eq_true_eq]
  exact Or.inr (containsSpine_refl c)

theorem containsSpine_nested_outer_false (c x : Part) :
    containsSpine (Part.nested c x) c = false := by
  by_contra h
  have h' : containsSpine (Part.nested c x) c = true := by
    revert h; cases containsSpine (Part.nested c x) c <;> simp
  have h2 := containsSpine_psize h'
  have h3 := psize_pos x
  simp only [psize] at h2
  omega

theorem overlapP_self (p : Part) : overlapP p p = true := by
  simp [overlapP, containsSpine_refl]

theorem overlapP_symm (a b : Part) : overlapP a b = overlapP b a := by
  simp [overlapP, Bool.or_comm]

theorem overlapP_of_containsSpine {a b : Part} (h : containsSpine a b = true) :
    overlapP a b = true := by
  simp [overlapP, h]

theorem overlapP_of_containsSpine' {a b : Part} (h : containsSpine b a = true) :
    overlapP a b = true := by
  simp [overlapP, h]

theorem overlap_nested_of_overlap {c x y : Part}
    (h : overlapP (Part.nested c x) y = true) : overlapP c y = true := by
  simp only [overlapP, Bool.or_eq_true] at h ⊢
  rcases h with h | h
  · exact Or.inl (containsSpine_trans (containsSpine_nested_outer c x) h)
  · simp only [containsSpine, Bool.or_eq_true, decide_eq_true_eq] at h
    rcases h with rfl | h
    · exact Or.inl (containsSpine_nested_outer c x)
    · exact Or.inr h

theorem overlap_of_cover {q x y : Part} (hyx : containsSpine y x = true)
    (h : overlapP q x = true) : overlapP q y = true := by
  simp only [overlapP, Bool.or_eq_true] at h ⊢
  rcases h with h | h
  · rcases containsSpine_chain h hyx with h2 | h2
    · exact Or.inl h2
    · exact Or.inr h2
  · exact Or.inr (containsSpine_trans hyx h)

/-! Well-formed capability lists and the split list. -/

theorem capParts_cons (e : Part × Mode) (H : CapList) :
    capParts (e :: H) = e.1 :: capParts H := rfl

theorem mem_capParts {p : Part} {H : CapList} :
    p ∈ capParts H ↔ ∃ m, (p, m) ∈ H := by
  constructor
  · intro h
    obtain ⟨e, he, hfst⟩ := List.mem_map.mp h
    exact ⟨e.2, by simpa [← hfst] using he⟩
  · rintro ⟨m, hm⟩
    exact List.mem_map.mpr ⟨(p, m), hm, rfl⟩

theorem wfCaps_cons {e : Part × Mode} {H : CapList} :
    wfCaps (e :: H) ↔ (∀ q ∈ capParts H, overlapP e.1 q = false) ∧ wfCaps H := by
  simp only [wfCaps, wfParts, capParts, List.map_cons, List.pairwise_cons]

theorem wfCaps.nodup {H : CapList} (h : wfCaps H) : (capParts H).Nodup := by
  refine List.Pairwise.imp ?_ h
  intro a b hab
  intro hEq
  subst hEq
  simp [overlapP_self] at hab

theorem wfCaps_entries {H : CapList} (hwf : wfCaps H) {e f : Part × Mode}
    (he : e ∈ H) (hf : f ∈ H) (hov : overlapP e.1 f.1 = true) : e = f := by
  induction H with
  | nil => cases he
  | cons a rest ih =>
    rw [wfCaps_cons] at hwf
    rcases List.mem_cons.mp he with rfl | he' <;>
      rcases List.mem_cons.mp hf with rfl | hf'
    · rfl
    · have := hwf.1 f.1 (mem_capParts.mpr ⟨f.2, hf'⟩)
      rw [this] at hov; cases hov
    · have := hwf.1 e.1 (mem_capParts.mpr ⟨e.2, he'⟩)
      rw [overlapP_symm] at this
      rw [this] at hov; cases hov
    · exact ih hwf.2 he' hf'

theorem splitMutList_eq (cp : Part) (ps : List Part) (rest : CapList) :
    splitMutList cp ps rest =
      (ps.reverse.map (fun p => (Part.nested cp p, Mode.Mut))) ++ rest := by
  induction ps generalizing rest with
  | nil => simp [splitMutList]
  | cons p ps ih =>
    show splitMutList cp ps ((Part.nested cp p, Mode.Mut) :: rest) = _
    rw [ih]
    simp

theorem capParts_splitMutList (cp : Part) (ps : List Part) (rest : CapList) :
    capParts (splitMutList cp ps rest) =
      ps.reverse.map (Part.nested cp) ++ capParts rest := by
  rw [splitMutList_eq]
  simp [capParts, Function.comp]

theorem wf_splitMutList {c : Part} {rest : CapList} {ps : List Part}
    (hnd : ps.Nodup) (hwf : wfCaps ((c, Mode.Mut) :: rest)) :
    wfCaps (splitMutList c ps rest) := by
  rw [wfCaps_cons] at hwf
  obtain ⟨hc, hrest⟩ := hwf
  have hnd' : ps.reverse.Nodup := List.nodup_reverse.mpr hnd
  simp only [wfCaps, wfParts, capParts_splitMutList]
  rw [List.pairwise_append]
  refine ⟨?_, hrest, ?_⟩
  · rw [List.pairwise_map]
    refine List.Pairwise.imp ?_ hnd'
    intro a b hab
    by_contra hov
    have hov' : overlapP (Part.nested c a) (Part.nested c b) = true := by
      revert hov; cases overlapP (Part.nested c a) (Part.nested c b) <;> simp
    simp only [overlapP, Bool.or_eq_true] at hov'
    rcases hov' with h | h <;>
      simp only [containsSpine, Bool.or_eq_true, decide_eq_true_eq] at h <;>
      rcases h with h | h
    · exact hab (by cases h; rfl)
    · rw [containsSpine_nested_outer_false] at h; cases h
    · exact hab (by cases h; rfl)
    · rw [containsSpine_nested_outer_false] at h; cases h
  · intro x hx y hy
    obtain ⟨a, _, rfl⟩ := List.mem_map.mp hx
    by_contra hov
    have hov' : overlapP (Part.nested c a) y = true := by
      revert hov; cases overlapP (Part.nested c a) y <;> simp
    have := overlap_nested_of_overlap hov'
    rw [hc y hy] at this; cases this

/-! Matched-entry lemmas: every successful pluck matches one held entry whose
part lies on the requested part's outer spine, and a mutable pluck matches a
mutable entry. -/

theorem PluckMut.matched_mut {env : Env} {p : Part} {H H' : CapList}
    (h : PluckMut env p H H') :
    ∃ q, (q, Mode.Mut) ∈ H ∧ containsSpine q p = true := by
  induction h with
  | here p rest => exact ⟨p, List.mem_cons_self _ _, containsSpine_refl p⟩
  | skipConst p q rest rem _ ih =>
    obtain ⟨r, hr, hs⟩ := ih
    exact ⟨r, List.mem_cons_of_mem _ hr, hs⟩
  | skipMut p q rest rem _ ih =>
    obtain ⟨r, hr, hs⟩ := ih
    exact ⟨r, List.mem_cons_of_mem _ hr, hs⟩
  | split o i c s rest rem hco hfr _ _ =>
    refine ⟨c, List.mem_cons_self _ _, ?_⟩
    simp only [containsSpine, Bool.or_eq_true, decide_eq_true_eq]
    exact Or.inr hco

theorem PluckConst.matched_const {env : Env} {p : Part} {H H' : CapList}
    (h : PluckConst env p H H') :
    ∃ q m, (q, m) ∈ H ∧ containsSpine q p = true := by
  induction h with
  | hereConst p rest => exact ⟨p, Mode.Const, List.mem_cons_self _ _, containsSpine_refl p⟩
  | hereMut p rest => exact ⟨p, Mode.Mut, List.mem_cons_self _ _, containsSpine_refl p⟩
  | skipConst p q rest rem _ ih =>
    obtain ⟨r, m, hr, hs⟩ := ih
    exact ⟨r, m, List.mem_cons_of_mem _ hr, hs⟩
  | skipMut p q rest rem _ ih =>
    obtain ⟨r, m, hr, hs⟩ := ih
    exact ⟨r, m, List.mem_cons_of_mem _ hr, hs⟩
  | splitMut o i c s rest rem hco hfr _ _ =>
    refine ⟨c, Mode.Mut, List.mem_cons_self _ _, ?_⟩
    simp only [containsSpine, Bool.or_eq_true, decide_eq_true_eq]
    exact Or.inr hco
  | splitConst o i c s rest rem hco hfr _ _ =>
    refine ⟨c, Mode.Const, List.mem_cons_self _ _, ?_⟩
    simp only [containsSpine, Bool.or_eq_true, decide_eq_true_eq]
    exact Or.inr hco

/-! Preservation: plucking keeps a well-formed list well formed, and every
part of a pluck's remainder refines (lies under, on the spine order) some part
of the held list. -/

theorem PluckConst.wf_cover_const {env : Env} (henv : wfEnv env) :
    ∀ {p : Part} {H H' : CapList}, PluckConst env p H H' → wfCaps H →
      wfCaps H' ∧ ∀ x ∈ capParts H', ∃ y ∈ capParts H, containsSpine y x = true := by
  intro p H H' h
  induction h with
  | hereConst p rest =>
    intro hwf
    exact ⟨hwf, fun x hx => ⟨x, hx, containsSpine_refl x⟩⟩
  | hereMut p rest =>
    intro hwf
    exact ⟨hwf, fun x hx => ⟨x, hx, containsSpine_refl x⟩⟩
  | skipConst p q rest rem _ ih =>
    intro hwf
    rw [wfCaps_cons] at hwf
    obtain ⟨hwrem, hcov⟩ := ih hwf.2
    rw [wfCaps_cons]
    refine ⟨⟨?_, hwrem⟩, ?_⟩
    · intro x hx
      obtain ⟨y, hy, hyx⟩ := hcov x hx
      by_contra hne
      have hov : overlapP q x = true := by
        revert hne; cases overlapP q x <;> simp
      have := overlap_of_cover hyx hov
      rw [hwf.1 y hy] at this; cases this
    · intro x hx
      rcases List.mem_cons.mp hx with rfl | hx'
      · exact ⟨x, List.mem_cons_self _ _, containsSpine_refl x⟩
      · obtain ⟨y, hy, hyx⟩ := hcov x hx'
        exact ⟨y, List.mem_cons_of_mem _ hy, hyx⟩
  | skipMut p q rest rem _ ih =>
    intro hwf
    rw [wfCaps_cons] at hwf
    obtain ⟨hwrem, hcov⟩ := ih hwf.2
    rw [wfCaps_cons]
    refine ⟨⟨?_, hwrem⟩, ?_⟩
    · intro x hx
      obtain ⟨y, hy, hyx⟩ := hcov x hx
      by_contra hne
      have hov : overlapP q x = true := by
        revert hne; cases overlapP q x <;> simp
      have := overlap_of_cover hyx hov
      rw [hwf.1 y hy] at this; cases this
    · intro x hx
      rcases List.mem_cons.mp hx with rfl | hx'
      · exact ⟨x, List.mem_cons_self _ _, containsSpine_refl x⟩
      · obtain ⟨y, hy, hyx⟩ := hcov x hx'
        exact ⟨y, List.mem_cons_of_mem _ hy, hyx⟩
  | splitMut o i c s rest rem hco hfr _ ih =>
    intro hwf
    have hSL := wf_splitMutList (henv s) hwf
    obtain ⟨hwrem, hcov⟩ := ih hSL
    refine ⟨hwrem, ?_⟩
    intro x hx
    obtain ⟨y, hy, hyx⟩ := hcov x hx
    rw [capParts_splitMutList] at hy
    rcases List.mem_append.mp hy with hy' | hy'
    · obtain ⟨a, _, rfl⟩ := List.mem_map.mp hy'
      exact ⟨c, List.mem_cons_self _ _,
        containsSpine_trans (containsSpine_nested_outer c a) hyx⟩
    · exact ⟨y, List.mem_cons_of_mem _ hy', hyx⟩
  | splitConst o i c s rest rem hco hfr _ _ =>
    intro hwf
    exact ⟨hwf, fun x hx => ⟨x, hx, containsSpine_refl x⟩⟩

theorem PluckMut.wf_cover_mut {env : Env} (henv : wfEnv env) :
    ∀ {p : Part} {H H' : CapList}, PluckMut env p H H' → wfCaps H →
      wfCaps H' ∧ ∀ x ∈ capParts H', ∃ y ∈ capParts H, containsSpine y x = true := by
  intro p H H' h
  induction h with
  | here p rest =>
    intro hwf
    rw [wfCaps_cons] at hwf
    exact ⟨hwf.2, fun x hx => ⟨x, List.mem_cons_of_mem _ hx, containsSpine_refl x⟩⟩
  | skipConst p q rest rem _ ih =>
    intro hwf
    rw [wfCaps_cons] at hwf
    obtain ⟨hwrem, hcov⟩ := ih hwf.2
    rw [wfCaps_cons]
    refine ⟨⟨?_, hwrem⟩, ?_⟩
    · intro x hx
      obtain ⟨y, hy, hyx⟩ := hcov x hx
      by_contra hne
      have hov : overlapP q x = true := by
        revert hne; cases overlapP q x <;> simp
      have := overlap_of_cover hyx hov
      rw [hwf.1 y hy] at this; cases this
    · intro x hx
      rcases List.mem_cons.mp hx with rfl | hx'
      · exact ⟨x, List.mem_cons_self _ _, containsSpine_refl x⟩
      · obtain ⟨y, hy, hyx⟩ := hcov x hx'
        exact ⟨y, List.mem_cons_of_mem _ hy, hyx⟩
  | skipMut p q rest rem _ ih =>
    intro hwf
    rw [wfCaps_cons] at hwf
    obtain ⟨hwrem, hcov⟩ := ih hwf.2
    rw [wfCaps_cons]
    refine ⟨⟨?_, hwrem⟩, ?_⟩
    · intro x hx
      obtain ⟨y, hy, hyx⟩ := hcov x hx
      by_contra hne
      have hov : overlapP q x = true := by
        revert hne; cases overlapP q x <;> simp
      have := overlap_of_cover hyx hov
      rw [hwf.1 y hy] at this; cases this
    · intro x hx
      rcases List.mem_cons.mp hx with rfl | hx'
      · exact ⟨x, List.mem_cons_self _ _, containsSpine_refl x⟩
      · obtain ⟨y, hy, hyx⟩ := hcov x hx'
        exact ⟨y, List.mem_cons_of_mem _ hy, hyx⟩
  | split o i c s rest rem hco hfr _ ih =>
    intro hwf
    have hSL := wf_splitMutList (henv s) hwf
    obtain ⟨hwrem, hcov⟩ := ih hSL
    refine ⟨hwrem, ?_⟩
    intro x hx
    obtain ⟨y, hy, hyx⟩ := hcov x hx
    rw [capParts_splitMutList] at hy
    rcases List.mem_append.mp hy with hy' | hy'
    · obtain ⟨a, _, rfl⟩ := List.mem_map.mp hy'
      exact ⟨c, List.mem_cons_self _ _,
        containsSpine_trans (containsSpine_nested_outer c a) hyx⟩
    · exact ⟨y, List.mem_cons_of_mem _ hy', hyx⟩

theorem HasSubset.wf_rem {env : Env} (henv : wfEnv env) :
    ∀ {H R rem : CapList}, HasSubset env H R rem → wfCaps H → wfCaps rem := by
  intro H R rem h
  induction h with
  | nil H => exact id
  | consConst p H H1 R rem hpl _ ih =>
    intro hwf
    exact ih ((PluckConst.wf_cover_const henv hpl hwf).1)
  | consMut p H H1 R rem hpl _ ih =>
    intro hwf
    exact ih ((PluckMut.wf_cover_mut henv hpl hwf).1)

/-- No entry of the list has a part on the outer spine of `p`: the region of
`p` is untouchable through the list.  A mutable pluck of `p` leaves its
remainder in this state. -/
def noCover (p : Part) (H : CapList) : Prop :=
  ∀ q ∈ capParts H, containsSpine q p = false

/-- Every entry of the list whose part lies on the outer spine of `p` is
shared: the region of `p` is read-only through the list.  A shared pluck of
`p` leaves its remainder in this state. -/
def safeConst (p : Part) (H : CapList) : Prop :=
  ∀ e ∈ H, containsSpine e.1 p = true → e.2 = Mode.Const

theorem noCover_not_mem {p : Part} {H : CapList} (h : noCover p H) :
    p ∉ capParts H := by
  intro hp
  have := h p hp
  rw [containsSpine_refl] at this; cases this

theorem PluckMut.noCover_rem {env : Env} (henv : wfEnv env) :
    ∀ {p : Part} {H H' : CapList}, PluckMut env p H H' → wfCaps H →
      noCover p H' := by
  intro p H H' h
  induction h with
  | here p rest =>
    intro hwf q hq
    rw [wfCaps_cons] at hwf
    by_contra hne
    have hqp : containsSpine q p = true := by
      revert hne; cases containsSpine q p <;> simp
    have := hwf.1 q hq
    rw [overlapP_of_containsSpine' hqp] at this; cases this
  | skipConst p q rest rem hsub ih =>
    intro hwf
    rw [wfCaps_cons] at hwf
    have hrem := ih hwf.2
    intro x hx
    rcases List.mem_cons.mp hx with rfl | hx'
    · by_contra hne
      have hxp : containsSpine x p = true := by
        revert hne; cases containsSpine x p <;> simp
      obtain ⟨r, hr, hrs⟩ := hsub.matched_mut
      have hrmem : r ∈ capParts rest := mem_capParts.mpr ⟨Mode.Mut, hr⟩
      have hov2 : overlapP x r = false := hwf.1 r hrmem
      rcases containsSpine_chain hxp hrs with h2 | h2
      · have htrue := overlapP_of_containsSpine h2
        rw [hov2] at htrue; cases htrue
      · have htrue := overlapP_of_containsSpine' h2
        rw [hov2] at htrue; cases htrue
    · exact hrem x hx'
  | skipMut p q rest rem hsub ih =>
    intro hwf
    rw [wfCaps_cons] at hwf
    have hrem := ih hwf.2
    intro x hx
    rcases List.mem_cons.mp hx with rfl | hx'
    · by_contra hne
      have hxp : containsSpine x p = true := by
        revert hne; cases containsSpine x p <;> simp
      obtain ⟨r, hr, hrs⟩ := hsub.matched_mut
      have hrmem : r ∈ capParts rest := mem_capParts.mpr ⟨Mode.Mut, hr⟩
      have hov2 : overlapP x r = false := hwf.1 r hrmem
      rcases containsSpine_chain hxp hrs with h2 | h2
      · have htrue := overlapP_of_containsSpine h2
        rw [hov2] at htrue; cases htrue
      · have htrue := overlapP_of_containsSpine' h2
        rw [hov2] at htrue; cases htrue
    · exact hrem x hx'
  | split o i c s rest rem hco hfr _ ih =>
    intro hwf
    exact ih (wf_splitMutList (henv s) hwf)

theorem PluckConst.safeConst_rem {env : Env} (henv : wfEnv env) :
    ∀ {p : Part} {H H' : CapList}, PluckConst env p H H' → wfCaps H →
      safeConst p H' := by
  intro p H H' h
  induction h with
  | hereConst p rest =>
    intro hwf e he _
    rcases List.mem_cons.mp he with rfl | he'
    · rfl
    · exfalso
      rw [wfCaps_cons] at hwf
      have hcov : containsSpine e.1 p = true := by assumption
      have := hwf.1 e.1 (mem_capParts.mpr ⟨e.2, he'⟩)
      rw [overlapP_of_containsSpine' hcov] at this; cases this
  | hereMut p rest =>
    intro hwf e he hcov
    rcases List.mem_cons.mp he with rfl | he'
    · rfl
    · exfalso
      rw [wfCaps_cons] at hwf
      have := hwf.1 e.1 (mem_capParts.mpr ⟨e.2, he'⟩)
      rw [overlapP_of_containsSpine' hcov] at this; cases this
  | skipConst p q rest rem hsub ih =>
    intro hwf
    rw [wfCaps_cons] at hwf
    have hrem := ih hwf.2
    intro e he hcov
    rcases List.mem_cons.mp he with rfl | he'
    · rfl
    · exact hrem e he' hcov
  | skipMut p q rest rem hsub ih =>
    intro hwf
    rw [wfCaps_cons] at hwf
    have hrem := ih hwf.2
    intro e he hcov
    rcases List.mem_cons.mp he with rfl | he'
    · exfalso
      obtain ⟨r, m, hr, hrs⟩ := hsub.matched_const
      have hrmem : r ∈ capParts rest := mem_capParts.mpr ⟨m, hr⟩
      have hov2 : overlapP q r = false := hwf.1 r hrmem
      rcases containsSpine_chain hcov hrs with h2 | h2
      · have htrue := overlapP_of_containsSpine h2
        rw [hov2] at htrue; cases htrue
      · have htrue := overlapP_of_containsSpine' h2
        rw [hov2] at htrue; cases htrue
    · exact hrem e he' hcov
  | splitMut o i c s rest rem hco hfr _ ih =>
    intro hwf
    exact ih (wf_splitMutList (henv s) hwf)
  | splitConst o i c s rest rem hco hfr _ _ =>
    intro hwf e he hcov
    rcases List.mem_cons.mp he with rfl | he'
    · rfl
    · exfalso
      rw [wfCaps_cons] at hwf
      have hcp : containsSpine c (Part.nested o i) = true := by
        simp only [containsSpine, Bool.or_eq_true, decide_eq_true_eq]
        exact Or.inr hco
      have hov := hwf.1 e.1 (mem_capParts.mpr ⟨e.2, he'⟩)
      rcases containsSpine_chain hcov hcp with h2 | h2
      · rw [overlapP_of_containsSpine' h2] at hov; cases hov
      · rw [overlapP_of_containsSpine h2] at hov; cases hov

theorem noCover_splitMutList {p c : Part} {rest : CapList} {ps : List Part}
    (hnc : noCover p ((c, Mode.Mut) :: rest)) :
    noCover p (splitMutList c ps rest) := by
  intro x hx
  rw [capParts_splitMutList] at hx
  rcases List.mem_append.mp hx with hx' | hx'
  · obtain ⟨a, _, rfl⟩ := List.mem_map.mp hx'
    by_contra hne
    have h1 : containsSpine (Part.nested c a) p = true := by
      revert hne; cases containsSpine (Part.nested c a) p <;> simp
    have h2 := containsSpine_trans (containsSpine_nested_outer c a) h1
    have h3 := hnc c (List.mem_cons_self _ _)
    rw [h3] at h2; cases h2
  · exact hnc x (List.mem_cons_of_mem _ hx')

theorem safeConst_splitMutList {p c : Part} {rest : CapList} {ps : List Part}
    (hs : safeConst p ((c, Mode.Mut) :: rest)) :
    safeConst p (splitMutList c ps rest) := by
  intro e he hcov
  rw [splitMutList_eq] at he
  rcases List.mem_append.mp he with he' | he'
  · obtain ⟨a, _, rfl⟩ := List.mem_map.mp he'
    exfalso
    have h2 := containsSpine_trans (containsSpine_nested_outer c a) hcov
    have h3 := hs (c, Mode.Mut) (List.mem_cons_self _ _) h2
    cases h3
  · exact hs e (List.mem_cons_of_mem _ he') hcov

theorem PluckConst.noCover_pres_const {env : Env} {p : Part} :
    ∀ {q : Part} {H H' : CapList}, PluckConst env q H H' →
      noCover p H → noCover p H' := by
  intro q H H' h
  induction h with
  | hereConst q rest => exact fun hnc => hnc
  | hereMut q rest => exact fun hnc => hnc
  | skipConst q s rest rem _ ih =>
    intro hnc x hx
    rcases List.mem_cons.mp hx with rfl | hx'
    · exact hnc x (List.mem_cons_self _ _)
    · exact ih (fun y hy => hnc y (List.mem_cons_of_mem _ hy)) x hx'
  | skipMut q s rest rem _ ih =>
    intro hnc x hx
    rcases List.mem_cons.mp hx with rfl | hx'
    · exact hnc x (List.mem_cons_self _ _)
    · exact ih (fun y hy => hnc y (List.mem_cons_of_mem _ hy)) x hx'
  | splitMut o i c s rest rem hco hfr _ ih =>
    exact fun hnc => ih (noCover_splitMutList hnc)
  | splitConst o i c s rest rem hco hfr _ _ =>
    exact fun hnc => hnc

theorem PluckMut.noCover_pres_mut {env : Env} {p : Part} :
    ∀ {q : Part} {H H' : CapList}, PluckMut env q H H' →
      noCover p H → noCover p H' := by
  intro q H H' h
  induction h with
  | here q rest =>
    exact fun hnc x hx => hnc x (List.mem_cons_of_mem _ hx)
  | skipConst q s rest rem _ ih =>
    intro hnc x hx
    rcases List.mem_cons.mp hx with rfl | hx'
    · exact hnc x (List.mem_cons_self _ _)
    · exact ih (fun y hy => hnc y (List.mem_cons_of_mem _ hy)) x hx'
  | skipMut q s rest rem _ ih =>
    intro hnc x hx
    rcases List.mem_cons.mp hx with rfl | hx'
    · exact hnc x (List.mem_cons_self _ _)
    · exact ih (fun y hy => hnc y (List.mem_cons_of_mem _ hy)) x hx'
  | split o i c s rest rem hco hfr _ ih =>
    exact fun hnc => ih (noCover_splitMutList hnc)

theorem PluckConst.safeConst_pres_const {env : Env} {p : Part} :
    ∀ {q : Part} {H H' : CapList}, PluckConst env q H H' →
      safeConst p H → safeConst p H' := by
  intro q H H' h
  induction h with
  | hereConst q rest => exact fun hs => hs
  | hereMut q rest =>
    intro hs e he hcov
    rcases List.mem_cons.mp he with rfl | he'
    · rfl
    · exact hs e (List.mem_cons_of_mem _ he') hcov
  | skipConst q s rest rem _ ih =>
    intro hs e he hcov
    rcases List.mem_cons.mp he with heq | he'
    · subst heq
      exact hs _ (List.mem_cons_self _ _) hcov
    · exact ih (fun f hf => hs f (List.mem_cons_of_mem _ hf)) e he' hcov
  | skipMut q s rest rem _ ih =>
    intro hs e he hcov
    rcases List.mem_cons.mp he with heq | he'
    · subst heq
      exact hs _ (List.mem_cons_self _ _) hcov
    · exact ih (fun f hf => hs f (List.mem_cons_of_mem _ hf)) e he' hcov
  | splitMut o i c s rest rem hco hfr _ ih =>
    exact fun hs => ih (safeConst_splitMutList hs)
  | splitConst o i c s rest rem hco hfr _ _ =>
    exact fun hs => hs

theorem PluckMut.safeConst_pres_mut {env : Env} {p : Part} :
    ∀ {q : Part} {H H' : CapList}, PluckMut env q H H' →
      safeConst p H → safeConst p H' := by
  intro q H H' h
  induction h with
  | here q rest =>
    exact fun hs e he hcov => hs e (List.mem_cons_of_mem _ he) hcov
  | skipConst q s rest rem _ ih =>
    intro hs e he hcov
    rcases List.mem_cons.mp he with heq | he'
    · subst heq
      exact hs _ (List.mem_cons_self _ _) hcov
    · exact ih (fun f hf => hs f (List.mem_cons_of_mem _ hf)) e he' hcov
  | skipMut q s rest rem _ ih =>
    intro hs e he hcov
    rcases List.mem_cons.mp he with heq | he'
    · subst heq
      exact hs _ (List.mem_cons_self _ _) hcov
    · exact ih (fun f hf => hs f (List.mem_cons_of_mem _ hf)) e he' hcov
  | split o i c s rest rem hco hfr _ ih =>
    exact fun hs => ih (safeConst_splitMutList hs)

theorem HasSubset.noCover_pres_sub {env : Env} {p : Part} :
    ∀ {H R rem : CapList}, HasSubset env H R rem → noCover p H → noCover p rem := by
  intro H R rem h
  induction h with
  | nil H => exact id
  | consConst q H H1 R rem hpl _ ih => exact fun hnc => ih (hpl.noCover_pres_const hnc)
  | consMut q H H1 R rem hpl _ ih => exact fun hnc => ih (hpl.noCover_pres_mut hnc)

theorem HasSubset.safeConst_pres_sub {env : Env} {p : Part} :
    ∀ {H R rem : CapList}, HasSubset env H R rem → safeConst p H → safeConst p rem := by
  intro H R rem h
  induction h with
  | nil H => exact id
  | consConst q H H1 R rem hpl _ ih => exact fun hs => ih (hpl.safeConst_pres_const hs)
  | consMut q H H1 R rem hpl _ ih => exact fun hs => ih (hpl.safeConst_pres_mut hs)

/-- The central soundness invariant: narrowing a well-formed held list leaves
a remainder in which every exclusively requested part is uncoverable and every
shared-requested part is read-only. -/
theorem HasSubset.secure {env : Env} (henv : wfEnv env) :
    ∀ {H R rem : CapList}, HasSubset env H R rem → wfCaps H →
      (∀ p, (p, Mode.Mut) ∈ R → noCover p rem) ∧
      (∀ p, (p, Mode.Const) ∈ R → safeConst p rem) := by
  intro H R rem h
  induction h with
  | nil H =>
    exact fun _ => ⟨fun p hp => absurd hp (List.not_mem_nil _),
      fun p hp => absurd hp (List.not_mem_nil _)⟩
  | consConst q H H1 R rem hpl hsub ih =>
    intro hwf
    have hwf1 := (PluckConst.wf_cover_const henv hpl hwf).1
    obtain ⟨ihm, ihc⟩ := ih hwf1
    refine ⟨?_, ?_⟩
    · intro p hp
      rcases List.mem_cons.mp hp with heq | hp'
      · cases heq
      · exact ihm p hp'
    · intro p hp
      rcases List.mem_cons.mp hp with heq | hp'
      · cases heq
        exact hsub.safeConst_pres_sub (PluckConst.safeConst_rem henv hpl hwf)
      · exact ihc p hp'
  | consMut q H H1 R rem hpl hsub ih =>
    intro hwf
    have hwf1 := (PluckMut.wf_cover_mut henv hpl hwf).1
    obtain ⟨ihm, ihc⟩ := ih hwf1
    refine ⟨?_, ?_⟩
    · intro p hp
      rcases List.mem_cons.mp hp with heq | hp'
      · cases heq
        exact hsub.noCover_pres_sub (PluckMut.noCover_rem henv hpl hwf)
      · exact ihm p hp'
    · intro p hp
      rcases List.mem_cons.mp hp with heq | hp'
      · cases heq
      · exact ihc p hp'

/-! Existence and uniqueness of flat plucks. -/

theorem pluckConst_exists {env : Env} {p : Part} {m : Mode} {H : CapList}
    (hm : (p, m) ∈ H) : PluckConst env p H (downgradeFirst p H) := by
  induction H with
  | nil => cases hm
  | cons e rest ih =>
    obtain ⟨q, mq⟩ := e
    by_cases hq : q = p
    · subst hq
      cases mq
      · have hstep : downgradeFirst q ((q, Mode.Mut) :: rest) =
            (q, Mode.Const) :: rest := by simp [downgradeFirst]
        rw [hstep]
        exact PluckConst.hereMut q rest
      · have hstep : downgradeFirst q ((q, Mode.Const) :: rest) =
            (q, Mode.Const) :: rest := by simp [downgradeFirst]
        rw [hstep]
        exact PluckConst.hereConst q rest
    · have hm' : (p, m) ∈ rest := by
        rcases List.mem_cons.mp hm with heq | h'
        · injection heq with h1 h2
          exact absurd h1.symm hq
        · exact h'
      have hstep : downgradeFirst p ((q, mq) :: rest) =
          (q, mq) :: downgradeFirst p rest := by simp [downgradeFirst, hq]
      rw [hstep]
      cases mq
      · exact PluckConst.skipMut p q _ _ (ih hm')
      · exact PluckConst.skipConst p q _ _ (ih hm')

theorem pluckMut_exists {env : Env} {p : Part} {H : CapList}
    (hm : (p, Mode.Mut) ∈ H) : ∃ H', PluckMut env p H H' := by
  induction H with
  | nil => cases hm
  | cons e rest ih =>
    obtain ⟨q, mq⟩ := e
    rcases List.mem_cons.mp hm with heq | h'
    · cases heq
      exact ⟨rest, PluckMut.here p rest⟩
    · obtain ⟨H', hd⟩ := ih h'
      cases mq
      · exact ⟨(q, Mode.Mut) :: H', PluckMut.skipMut p q _ _ hd⟩
      · exact ⟨(q, Mode.Const) :: H', PluckMut.skipConst p q _ _ hd⟩

theorem PluckConst.eq_downgrade {env : Env} :
    ∀ {p : Part} {H H' : CapList}, PluckConst env p H H' → wfCaps H →
      p ∈ capParts H → H' = downgradeFirst p H := by
  intro p H H' h
  induction h with
  | hereConst p rest =>
    intro _ _
    simp [downgradeFirst]
  | hereMut p rest =>
    intro _ _
    simp [downgradeFirst]
  | skipConst p q rest rem hsub ih =>
    intro hwf hp
    obtain ⟨r, m, hr, hrs⟩ := hsub.matched_const
    have hq : ¬ q = p := by
      rintro rfl
      have hov : overlapP q r = false :=
        (wfCaps_cons.mp hwf).1 r (mem_capParts.mpr ⟨m, hr⟩)
      have htrue : overlapP q r = true := overlapP_of_containsSpine' hrs
      rw [hov] at htrue; cases htrue
    have hp' : p ∈ capParts rest := by
      rcases List.mem_cons.mp hp with heq | h'
      · exact absurd heq.symm hq
      · exact h'
    have hstep : downgradeFirst p ((q, Mode.Const) :: rest) =
        (q, Mode.Const) :: downgradeFirst p rest := by simp [downgradeFirst, hq]
    rw [hstep, ih (wfCaps_cons.mp hwf).2 hp']
  | skipMut p q rest rem hsub ih =>
    intro hwf hp
    obtain ⟨r, m, hr, hrs⟩ := hsub.matched_const
    have hq : ¬ q = p := by
      rintro rfl
      have hov : overlapP q r = false :=
        (wfCaps_cons.mp hwf).1 r (mem_capParts.mpr ⟨m, hr⟩)
      have htrue : overlapP q r = true := overlapP_of_containsSpine' hrs
      rw [hov] at htrue; cases htrue
    have hp' : p ∈ capParts rest := by
      rcases List.mem_cons.mp hp with heq | h'
      · exact absurd heq.symm hq
      · exact h'
    have hstep : downgradeFirst p ((q, Mode.Mut) :: rest) =
        (q, Mode.Mut) :: downgradeFirst p rest := by simp [downgradeFirst, hq]
    rw [hstep, ih (wfCaps_cons.mp hwf).2 hp']
  | splitMut o i c s rest rem hco hfr hsub ih =>
    intro hwf hp
    exfalso
    have hcp : containsSpine c (Part.nested o i) = true := by
      simp only [containsSpine, Bool.or_eq_true, decide_eq_true_eq]
      exact Or.inr hco
    rcases List.mem_cons.mp hp with heq | h'
    · have heq' : c = Part.nested o i := heq.symm
      rw [heq'] at hco
      rw [containsSpine_nested_outer_false] at hco
      cases hco
    · have hov : overlapP c (Part.nested o i) = false := (wfCaps_cons.mp hwf).1 _ h'
      have htrue := overlapP_of_containsSpine hcp
      rw [hov] at htrue; cases htrue
  | splitConst o i c s rest rem hco hfr hsub _ =>
    intro hwf hp
    exfalso
    have hcp : containsSpine c (Part.nested o i) = true := by
      simp only [containsSpine, Bool.or_eq_true, decide_eq_true_eq]
      exact Or.inr hco
    rcases List.mem_cons.mp hp with heq | h'
    · have heq' : c = Part.nested o i := heq.symm
      rw [heq'] at hco
      rw [containsSpine_nested_outer_false] at hco
      cases hco
    · have hov : overlapP c (Part.nested o i) = false := (wfCaps_cons.mp hwf).1 _ h'
      have htrue := overlapP_of_containsSpine hcp
      rw [hov] at htrue; cases htrue

theorem PluckMut.eq_erase {env : Env} :
    ∀ {p : Part} {H H' : CapList}, PluckMut env p H H' → wfCaps H →
      p ∈ capParts H → (p, Mode.Mut) ∈ H ∧ H' = eraseFirst p H := by
  intro p H H' h
  induction h with
  | here p rest =>
    intro _ _
    refine ⟨List.mem_cons_self _ _, ?_⟩
    simp [eraseFirst]
  | skipConst p q rest rem hsub ih =>
    intro hwf hp
    obtain ⟨r, hr, hrs⟩ := hsub.matched_mut
    have hq : ¬ q = p := by
      rintro rfl
      have hov : overlapP q r = false :=
        (wfCaps_cons.mp hwf).1 r (mem_capParts.mpr ⟨Mode.Mut, hr⟩)
      have htrue : overlapP q r = true := overlapP_of_containsSpine' hrs
      rw [hov] at htrue; cases htrue
    have hp' : p ∈ capParts rest := by
      rcases List.mem_cons.mp hp with heq | h'
      · exact absurd heq.symm hq
      · exact h'
    obtain ⟨hmem, heq⟩ := ih (wfCaps_cons.mp hwf).2 hp'
    refine ⟨List.mem_cons_of_mem _ hmem, ?_⟩
    have hstep : eraseFirst p ((q, Mode.Const) :: rest) =
        (q, Mode.Const) :: eraseFirst p rest := by simp [eraseFirst, hq]
    rw [hstep, heq]
  | skipMut p q rest rem hsub ih =>
    intro hwf hp
    obtain ⟨r, hr, hrs⟩ := hsub.matched_mut
    have hq : ¬ q = p := by
      rintro rfl
      have hov : overlapP q r = false :=
        (wfCaps_cons.mp hwf).1 r (mem_capParts.mpr ⟨Mode.Mut, hr⟩)
      have htrue : overlapP q r = true := overlapP_of_containsSpine' hrs
      rw [hov] at htrue; cases htrue
    have hp' : p ∈ capParts rest := by
      rcases List.mem_cons.mp hp with heq | h'
      · exact absurd heq.symm hq
      · exact h'
    obtain ⟨hmem, heq⟩ := ih (wfCaps_cons.mp hwf).2 hp'
    refine ⟨List.mem_cons_of_mem _ hmem, ?_⟩
    have hstep : eraseFirst p ((q, Mode.Mut) :: rest) =
        (q, Mode.Mut) :: eraseFirst p rest := by simp [eraseFirst, hq]
    rw [hstep, heq]
  | split o i c s rest rem hco hfr hsub _ =>
    intro hwf hp
    exfalso
    have hcp : containsSpine c (Part.nested o i) = true := by
      simp only [containsSpine, Bool.or_eq_true, decide_eq_true_eq]
      exact Or.inr hco
    rcases List.mem_cons.mp hp with heq | h'
    · have heq' : c = Part.nested o i := heq.symm
      rw [heq'] at hco
      rw [containsSpine_nested_outer_false] at hco
      cases hco
    · have hov : overlapP c (Part.nested o i) = false := (wfCaps_cons.mp hwf).1 _ h'
      have htrue := overlapP_of_containsSpine hcp
      rw [hov] at htrue; cases htrue

/-- No exclusive pluck out of a list that holds the part shared: the static
rejection of `mut` requests against a `Const` entry. -/
theorem pluckMut_reject {env : Env} {p : Part} {H H' : CapList}
    (hwf : wfCaps H) (hc : (p, Mode.Const) ∈ H) (h : PluckMut env p H H') :
    False := by
  obtain ⟨q, hq, hqs⟩ := h.matched_mut
  have heq := wfCaps_entries hwf hc hq (overlapP_of_containsSpine' hqs)
  injection heq with h1 h2
  cases h2

/-! Shape of the downgrade and erase operations. -/

theorem capParts_downgradeFirst (p : Part) (H : CapList) :
    capParts (downgradeFirst p H) = capParts H := by
  induction H with
  | nil => rfl
  | cons e rest ih =>
    obtain ⟨q, m⟩ := e
    by_cases hq : q = p
    · simp [downgradeFirst, hq, capParts]
    · simp only [downgradeFirst, if_neg hq, capParts_cons, ih]

theorem mem_downgradeFirst_self {p : Part} {H : CapList} (hp : p ∈ capParts H) :
    (p, Mode.Const) ∈ downgradeFirst p H := by
  induction H with
  | nil => cases hp
  | cons e rest ih =>
    obtain ⟨q, m⟩ := e
    by_cases hq : q = p
    · subst hq
      simp only [downgradeFirst, if_pos rfl]
      exact List.mem_cons_self _ _
    · have hp' : p ∈ capParts rest := by
        rcases List.mem_cons.mp hp with heq | h'
        · exact absurd heq.symm hq
        · exact h'
      simp only [downgradeFirst, if_neg hq]
      exact List.mem_cons_of_mem _ (ih hp')

theorem mem_downgradeFirst {e : Part × Mode} {p : Part} {H : CapList}
    (he : e ∈ downgradeFirst p H) :
    e ∈ H ∨ (e.1 = p ∧ e.2 = Mode.Const ∧ (p, Mode.Mut) ∈ H) := by
  induction H with
  | nil => cases he
  | cons f rest ih =>
    obtain ⟨q, m⟩ := f
    by_cases hq : q = p
    · subst hq
      simp only [downgradeFirst, if_pos rfl] at he
      rcases List.mem_cons.mp he with heq | h'
      · subst heq
        cases m
        · exact Or.inr ⟨rfl, rfl, List.mem_cons_self _ _⟩
        · exact Or.inl (List.mem_cons_self _ _)
      · exact Or.inl (List.mem_cons_of_mem _ h')
    · simp only [downgradeFirst, if_neg hq] at he
      rcases List.mem_cons.mp he with heq | h'
      · subst heq
        exact Or.inl (List.mem_cons_self _ _)
      · rcases ih h' with h | ⟨h1, h2, h3⟩
        · exact Or.inl (List.mem_cons_of_mem _ h)
        · exact Or.inr ⟨h1, h2, List.mem_cons_of_mem _ h3⟩

theorem mem_of_mem_eraseFirst {e : Part × Mode} {p : Part} {H : CapList}
    (he : e ∈ eraseFirst p H) : e ∈ H := by
  induction H with
  | nil => cases he
  | cons f rest ih =>
    obtain ⟨q, m⟩ := f
    by_cases hq : q = p
    · simp only [eraseFirst, if_pos hq] at he
      exact List.mem_cons_of_mem _ he
    · simp only [eraseFirst, if_neg hq] at he
      rcases List.mem_cons.mp he with heq | h'
      · subst heq
        exact List.mem_cons_self _ _
      · exact List.mem_cons_of_mem _ (ih h')

theorem capParts_eraseFirst {p : Part} {H : CapList} (hp : p ∈ capParts H)
    (hnd : (capParts H).Nodup) :
    capParts (eraseFirst p H) = (capParts H).filter (fun q => decide (q ≠ p)) := by
  induction H with
  | nil => cases hp
  | cons e rest ih =>
    obtain ⟨q, m⟩ := e
    rw [capParts_cons] at hnd
    by_cases hq : q = p
    · subst hq
      simp only [eraseFirst, if_pos rfl, capParts_cons, List.filter_cons]
      have : (decide (q ≠ q)) = false := by simp
      rw [this]
      have hnotin : q ∉ capParts rest := (List.nodup_cons.mp hnd).1
      have : ∀ x ∈ capParts rest, decide (x ≠ q) = true := by
        intro x hx
        simp only [decide_eq_true_eq]
        rintro rfl
        exact hnotin hx
      exact (List.filter_eq_self.mpr this).symm
    · have hp' : p ∈ capParts rest := by
        rcases List.mem_cons.mp hp with heq | h'
        · exact absurd heq.symm hq
        · exact h'
      simp only [eraseFirst, if_neg hq, capParts_cons, List.filter_cons]
      have : (decide (q ≠ p)) = true := by simpa using hq
      rw [this, ih hp' (List.nodup_cons.mp hnd).2]
      simp

theorem filter_downgradeFirst (p : Part) (H : CapList) :
    (downgradeFirst p H).filter (fun e => decide (e.1 ≠ p)) =
      H.filter (fun e => decide (e.1 ≠ p)) := by
  induction H with
  | nil => rfl
  | cons e rest ih =>
    obtain ⟨q, m⟩ := e
    by_cases hq : q = p
    · subst hq
      simp [downgradeFirst, List.filter_cons]
    · simp only [downgradeFirst, if_neg hq, List.filter_cons]
      have : (decide ((q, m).1 ≠ p)) = true := by simpa using hq
      simp only [this]
      rw [ih]

theorem filter_eraseFirst (p : Part) (H : CapList) :
    (eraseFirst p H).filter (fun e => decide (e.1 ≠ p)) =
      H.filter (fun e => decide (e.1 ≠ p)) := by
  induction H with
  | nil => rfl
  | cons e rest ih =>
    obtain ⟨q, m⟩ := e
    by_cases hq : q = p
    · subst hq
      simp [eraseFirst, List.filter_cons]
    · simp only [eraseFirst, if_neg hq, List.filter_cons]
      have : (decide ((q, m).1 ≠ p)) = true := by simpa using hq
      simp only [this]
      rw [ih]

theorem wfEnv_env0 : wfEnv env0 := fun _ => List.nodup_nil

/-- C1: for any held list `H` with pairwise independent parts and any request
`B` realizable from it (`HasSubset`, the bound of `split_borrow`), the two
handles returned by `split_borrow` — the borrowed one over `B` and the
remainder over `rem` — have disjoint access: every part held exclusively by
one side is absent from the other side's list entirely. -/
theorem c1_split_disjoint (env : Env) (H B rem : CapList)
    (henv : wfEnv env) (hwf : wfCaps H) (hsub : HasSubset env H B rem) :
    (∀ p, (p, Mode.Mut) ∈ B → p ∉ capParts rem) ∧
    (∀ p, (p, Mode.Mut) ∈ rem → p ∉ capParts B) := by
  obtain ⟨hm, hc⟩ := HasSubset.secure henv hsub hwf
  refine ⟨?_, ?_⟩
  · intro p hp
    exact noCover_not_mem (hm p hp)
  · intro p hp hmem
    obtain ⟨m, hmB⟩ := mem_capParts.mp hmem
    cases m
    · exact noCover_not_mem (hm p hmB) (mem_capParts.mpr ⟨Mode.Mut, hp⟩)
    · have hcc := hc p hmB (p, Mode.Mut) hp (containsSpine_refl p)
      cases hcc

theorem c1_split_disjoint_witness :
    wfEnv env0 ∧
    wfCaps [(Part.base 0, Mode.Mut), (Part.base 1, Mode.Mut)] ∧
    HasSubset env0 [(Part.base 0, Mode.Mut), (Part.base 1, Mode.Mut)]
      [(Part.base 0, Mode.Mut)] [(Part.base 1, Mode.Mut)] ∧
    Part.base 0 ∉ capParts [(Part.base 1, Mode.Mut)] := by
  have hsub : HasSubset env0 [(Part.base 0, Mode.Mut), (Part.base 1, Mode.Mut)]
      [(Part.base 0, Mode.Mut)] [(Part.base 1, Mode.Mut)] :=
    HasSubset.consMut _ _ _ _ _ (PluckMut.here _ _) (HasSubset.nil _)
  refine ⟨wfEnv_env0, by decide, hsub, ?_⟩
  exact (c1_split_disjoint env0 _ _ _ wfEnv_env0 (by decide) hsub).1
    (Part.base 0) (List.mem_cons_self _ _)

/-- C2: a shared request for a part held (either `Mut` or `Const`) in a
well-formed list succeeds (the `PluckConst` instance exists), the remainder
retains the part as `Const` (the exclusive entry is permanently downgraded),
and no exclusive pluck of that part from the remainder exists. -/
theorem c2_shared_downgrade (env : Env) (p : Part) (m : Mode) (H : CapList)
    (henv : wfEnv env) (hwf : wfCaps H) (hm : (p, m) ∈ H) :
    PluckConst env p H (downgradeFirst p H) ∧
    (p, Mode.Const) ∈ downgradeFirst p H ∧
    (∀ rem, PluckConst env p H rem → rem = downgradeFirst p H) ∧
    (∀ rem rem2, PluckConst env p H rem → ¬ PluckMut env p rem rem2) := by
  have hp : p ∈ capParts H := mem_capParts.mpr ⟨m, hm⟩
  refine ⟨pluckConst_exists hm, mem_downgradeFirst_self hp, ?_, ?_⟩
  · intro rem hr
    exact PluckConst.eq_downgrade hr hwf hp
  · intro rem rem2 hr hmut
    have hwfrem : wfCaps rem := (PluckConst.wf_cover_const henv hr hwf).1
    have hrem := PluckConst.eq_downgrade hr hwf hp
    subst hrem
    exact pluckMut_reject hwfrem (mem_downgradeFirst_self hp) hmut

theorem c2_shared_downgrade_witness :
    wfEnv env0 ∧ wfCaps [(Part.base 0, Mode.Mut)] ∧
    (Part.base 0, Mode.Mut) ∈ ([(Part.base 0, Mode.Mut)] : CapList) ∧
    PluckConst env0 (Part.base 0) [(Part.base 0, Mode.Mut)]
      (downgradeFirst (Part.base 0) [(Part.base 0, Mode.Mut)]) :=
  ⟨wfEnv_env0, by decide, by decide,
    (c2_shared_downgrade env0 (Part.base 0) Mode.Mut _ wfEnv_env0 (by decide)
      (by decide)).1⟩

/-- C3: an exclusive request for a part held as an entry of a well-formed list
succeeds exactly when that entry is exclusive (`Mut`) — in particular a request
against a held-shared entry has no `PluckMut` instance — and on success the
entry is removed entirely: the remainder is the rest of the list without it. -/
theorem c3_exclusive_pluck (env : Env) (p : Part) (H : CapList)
    (hwf : wfCaps H) (hp : p ∈ capParts H) :
    ((∃ rem, PluckMut env p H rem) ↔ (p, Mode.Mut) ∈ H) ∧
    (∀ rem, PluckMut env p H rem → rem = eraseFirst p H) := by
  refine ⟨⟨?_, ?_⟩, ?_⟩
  · rintro ⟨rem, h⟩
    exact (PluckMut.eq_erase h hwf hp).1
  · intro hm
    exact pluckMut_exists hm
  · intro rem h
    exact (PluckMut.eq_erase h hwf hp).2

theorem c3_exclusive_pluck_witness :
    wfCaps [(Part.base 0, Mode.Const), (Part.base 1, Mode.Mut)] ∧
    Part.base 1 ∈ capParts [(Part.base 0, Mode.Const), (Part.base 1, Mode.Mut)] ∧
    (((∃ rem, PluckMut env0 (Part.base 1)
        [(Part.base 0, Mode.Const), (Part.base 1, Mode.Mut)] rem) ↔
      (Part.base 1, Mode.Mut) ∈
        ([(Part.base 0, Mode.Const), (Part.base 1, Mode.Mut)] : CapList)) ∧
    (∀ rem, PluckMut env0 (Part.base 1)
        [(Part.base 0, Mode.Const), (Part.base 1, Mode.Mut)] rem →
      rem = eraseFirst (Part.base 1)
        [(Part.base 0, Mode.Const), (Part.base 1, Mode.Mut)])) :=
  ⟨by decide, by decide,
    c3_exclusive_pluck env0 (Part.base 1) _ (by decide) (by decide)⟩

/-- C5: when the requested part is held as an entry of a well-formed list,
every other entry of the held list passes through the pluck to the remainder
unchanged — same part, same mode, same relative position — stated by filtering
the requested part's entries out of both lists. -/
theorem c5_pass_through (env : Env) (p : Part) (H rem : CapList)
    (hwf : wfCaps H) (hp : p ∈ capParts H)
    (h : PluckConst env p H rem ∨ PluckMut env p H rem) :
    rem.filter (fun e => decide (e.1 ≠ p)) =
      H.filter (fun e => decide (e.1 ≠ p)) := by
  rcases h with h | h
  · rw [PluckConst.eq_downgrade h hwf hp]
    exact filter_downgradeFirst p H
  · rw [(PluckMut.eq_erase h hwf hp).2]
    exact filter_eraseFirst p H

theorem c5_pass_through_witness :
    wfCaps [(Part.base 0, Mode.Mut), (Part.base 1, Mode.Mut)] ∧
    Part.base 0 ∈ capParts [(Part.base 0, Mode.Mut), (Part.base 1, Mode.Mut)] ∧
    ([(Part.base 1, Mode.Mut)] : CapList).filter (fun e => decide (e.1 ≠ Part.base 0)) =
      ([(Part.base 0, Mode.Mut), (Part.base 1, Mode.Mut)] : CapList).filter
        (fun e => decide (e.1 ≠ Part.base 0)) :=
  ⟨by decide, by decide,
    c5_pass_through env0 (Part.base 0) _ _ (by decide) (by decide)
      (Or.inr (PluckMut.here _ _))⟩

theorem containsSpine_base {r : Part} {n : Nat}
    (h : containsSpine r (Part.base n) = true) : r = Part.base n := by
  simpa [containsSpine] using h

theorem PluckMut.base_mem_mut {env : Env} {p : Part} {H H' : CapList}
    (h : PluckMut env p H H') (hb : isBase p = true) : (p, Mode.Mut) ∈ H := by
  obtain ⟨q, hq, hqs⟩ := h.matched_mut
  cases p with
  | base n =>
    rw [containsSpine_base hqs] at hq
    exact hq
  | nested o i => simp [isBase] at hb

theorem PluckConst.base_mem_const {env : Env} {p : Part} {H H' : CapList}
    (h : PluckConst env p H H') (hb : isBase p = true) : ∃ m, (p, m) ∈ H := by
  obtain ⟨q, m, hq, hqs⟩ := h.matched_const
  cases p with
  | base n =>
    rw [containsSpine_base hqs] at hq
    exact ⟨m, hq⟩
  | nested o i => simp [isBase] at hb

/-- C4 counterexample: narrowing the two-part list `{mut A, mut B}` by the
one-element subset `{mut A}` yields the remainder `{mut B}`: the remainder has
one entry, not two, and does not cover the original part `A`.  So a remainder
does not in general keep an entry for every one of the `N` original parts. -/
theorem c4_remainder_cover_counterexample :
    wfCaps [(Part.base 0, Mode.Mut), (Part.base 1, Mode.Mut)] ∧
    HasSubset env0 [(Part.base 0, Mode.Mut), (Part.base 1, Mode.Mut)]
      [(Part.base 0, Mode.Mut)] [(Part.base 1, Mode.Mut)] ∧
    ¬ (([(Part.base 1, Mode.Mut)] : CapList).length =
        ([(Part.base 0, Mode.Mut), (Part.base 1, Mode.Mut)] : CapList).length ∧
      Part.base 0 ∈ capParts [(Part.base 1, Mode.Mut)]) := by
  refine ⟨by decide, ?_, by decide⟩
  exact HasSubset.consMut _ _ _ _ _ (PluckMut.here _ _) (HasSubset.nil _)

/-- C4 (amended): narrowing a well-formed held list of `N` independent parts
by a request of flat parts, each held as an entry, yields the remainder
computed entry by entry (`applyReq`): it covers exactly the original parts
not requested exclusively — `N` minus the number of exclusively requested
parts entries, in the original order — and each retained entry either passes
through unchanged or is the §4.4 downgrade (`Mut` held, `Const` requested,
`Const` retained). -/
theorem c4_remainder_cover (env : Env) :
    ∀ {H R rem : CapList}, HasSubset env H R rem → wfEnv env → wfCaps H →
      (∀ e ∈ R, isBase e.1 = true) →
      rem = applyReq R H ∧
      capParts rem = (capParts H).filter (fun q => decide ((q, Mode.Mut) ∉ R)) ∧
      rem.length = ((capParts H).filter (fun q => decide ((q, Mode.Mut) ∉ R))).length ∧
      (∀ e ∈ rem, e ∈ H ∨
        (e.2 = Mode.Const ∧ (e.1, Mode.Mut) ∈ H ∧ (e.1, Mode.Const) ∈ R)) := by
  intro H R rem h
  induction h with
  | nil H =>
    intro _ _ _
    refine ⟨rfl, ?_, ?_, fun e he => Or.inl he⟩
    · have : ∀ x ∈ capParts H, (decide ((x, Mode.Mut) ∉ ([] : CapList))) = true := by
        intro x _
        simp
      exact (List.filter_eq_self.mpr this).symm
    · have : ∀ x ∈ capParts H, (decide ((x, Mode.Mut) ∉ ([] : CapList))) = true := by
        intro x _
        simp
      rw [List.filter_eq_self.mpr this]
      exact (List.length_map _ _).symm
  | consConst q H H1 R rem hpl hsub ih =>
    intro henv hwf hbase
    have hbq : isBase q = true := hbase (q, Mode.Const) (List.mem_cons_self _ _)
    obtain ⟨m0, hm0⟩ := hpl.base_mem_const hbq
    have hp : q ∈ capParts H := mem_capParts.mpr ⟨m0, hm0⟩
    have hH1 : H1 = downgradeFirst q H := PluckConst.eq_downgrade hpl hwf hp
    have hwf1 : wfCaps H1 := (PluckConst.wf_cover_const henv hpl hwf).1
    obtain ⟨ih1, ih2, ih3, ih4⟩ :=
      ih henv hwf1 (fun e he => hbase e (List.mem_cons_of_mem _ he))
    have hpt : ∀ x ∈ capParts H,
        (decide ((x, Mode.Mut) ∉ ((q, Mode.Const) :: R))) =
          (decide ((x, Mode.Mut) ∉ R)) := by
      intro x _
      simp [List.mem_cons]
    have hparts : capParts rem =
        (capParts H).filter (fun x => decide ((x, Mode.Mut) ∉ ((q, Mode.Const) :: R))) := by
      rw [List.filter_congr hpt]
      rw [ih2, hH1, capParts_downgradeFirst]
    refine ⟨?_, hparts, ?_, ?_⟩
    · show rem = applyReq R (downgradeFirst q H)
      rw [ih1, hH1]
    · rw [← hparts]
      exact (List.length_map _ _).symm
    · intro e he
      rcases ih4 e he with hL | ⟨h1, h2, h3⟩
      · rw [hH1] at hL
        rcases mem_downgradeFirst hL with hh | ⟨e1, e2, e3⟩
        · exact Or.inl hh
        · refine Or.inr ⟨e2, ?_, ?_⟩
          · rw [e1]; exact e3
          · rw [e1]; exact List.mem_cons_self _ _
      · rw [hH1] at h2
        rcases mem_downgradeFirst h2 with hh | ⟨e1, e2, e3⟩
        · exact Or.inr ⟨h1, hh, List.mem_cons_of_mem _ h3⟩
        · cases e2
  | consMut q H H1 R rem hpl hsub ih =>
    intro henv hwf hbase
    have hbq : isBase q = true := hbase (q, Mode.Mut) (List.mem_cons_self _ _)
    have hm0 := hpl.base_mem_mut hbq
    have hp : q ∈ capParts H := mem_capParts.mpr ⟨Mode.Mut, hm0⟩
    have hH1 : H1 = eraseFirst q H := (PluckMut.eq_erase hpl hwf hp).2
    have hwf1 : wfCaps H1 := (PluckMut.wf_cover_mut henv hpl hwf).1
    obtain ⟨ih1, ih2, ih3, ih4⟩ :=
      ih henv hwf1 (fun e he => hbase e (List.mem_cons_of_mem _ he))
    have hpt : ∀ x ∈ capParts H,
        (decide ((x, Mode.Mut) ∉ ((q, Mode.Mut) :: R))) =
          ((decide ((x, Mode.Mut) ∉ R)) && (decide (x ≠ q))) := by
      intro x _
      by_cases h1 : x = q
      · subst h1
        simp [List.mem_cons]
      · by_cases h2 : (x, Mode.Mut) ∈ R <;>
          simp [List.mem_cons, h1, h2, Prod.ext_iff]
    have hparts : capParts rem =
        (capParts H).filter (fun x => decide ((x, Mode.Mut) ∉ ((q, Mode.Mut) :: R))) := by
      rw [List.filter_congr hpt]
      calc capParts rem
          = (capParts H1).filter (fun x => decide ((x, Mode.Mut) ∉ R)) := ih2
        _ = ((capParts H).filter (fun x => decide (x ≠ q))).filter
              (fun x => decide ((x, Mode.Mut) ∉ R)) := by
            rw [hH1, capParts_eraseFirst hp hwf.nodup]
        _ = (capParts H).filter
              (fun x => (decide ((x, Mode.Mut) ∉ R)) && (decide (x ≠ q))) :=
            List.filter_filter _ _
    refine ⟨?_, hparts, ?_, ?_⟩
    · show rem = applyReq R (eraseFirst q H)
      rw [ih1, hH1]
    · rw [← hparts]
      exact (List.length_map _ _).symm
    · intro e he
      rcases ih4 e he with hL | ⟨h1, h2, h3⟩
      · rw [hH1] at hL
        exact Or.inl (mem_of_mem_eraseFirst hL)
      · rw [hH1] at h2
        exact Or.inr ⟨h1, mem_of_mem_eraseFirst h2, List.mem_cons_of_mem _ h3⟩

theorem c4_remainder_cover_witness :
    wfEnv env0 ∧
    wfCaps [(Part.base 0, Mode.Mut), (Part.base 1, Mode.Mut), (Part.base 2, Mode.Const)] ∧
    (∀ e ∈ ([(Part.base 0, Mode.Mut), (Part.base 1, Mode.Const)] : CapList),
      isBase e.1 = true) ∧
    HasSubset env0
      [(Part.base 0, Mode.Mut), (Part.base 1, Mode.Mut), (Part.base 2, Mode.Const)]
      [(Part.base 0, Mode.Mut), (Part.base 1, Mode.Const)]
      [(Part.base 1, Mode.Const), (Part.base 2, Mode.Const)] ∧
    [(Part.base 1, Mode.Const), (Part.base 2, Mode.Const)] =
      applyReq [(Part.base 0, Mode.Mut), (Part.base 1, Mode.Const)]
        [(Part.base 0, Mode.Mut), (Part.base 1, Mode.Mut), (Part.base 2, Mode.Const)] := by
  have hsub : HasSubset env0
      [(Part.base 0, Mode.Mut), (Part.base 1, Mode.Mut), (Part.base 2, Mode.Const)]
      [(Part.base 0, Mode.Mut), (Part.base 1, Mode.Const)]
      [(Part.base 1, Mode.Const), (Part.base 2, Mode.Const)] := by
    refine HasSubset.consMut _ _ _ _ _ (PluckMut.here _ _) ?_
    refine HasSubset.consConst _ _ _ _ _ (PluckConst.hereMut _ _) (HasSubset.nil _)
  refine ⟨wfEnv_env0, by decide, by decide, hsub, ?_⟩
  exact (c4_remainder_cover env0 hsub wfEnv_env0 (by decide) (by decide)).1

theorem wfEnv_env1 : wfEnv env1 := by
  intro r
  by_cases h0 : r = 0
  · subst h0; decide
  · by_cases h1 : r = 1
    · subst h1; decide
    · show (env1.recParts r).Nodup
      simp [env1, h0, h1]

/-- C6: resolution of a nested part composes the two resolutions: resolve the
outer part's address on the record, then resolve the inner part treating that
address as one of the outer field's own record type; `part_ptr_mut` composes
the two mutable resolutions the same way. -/
theorem c6_nested_resolution (env : Env) (r : Nat) (o i : Part) (s : Nat)
    (a : Addr) (hs : partFieldRec env o = some s) :
    partPtr env r (Part.nested o i) a =
      (partPtr env r o a).bind (fun a2 => partPtr env s i a2) ∧
    partPtrMut env r (Part.nested o i) a =
      (partPtrMut env r o a).bind (fun a2 => partPtrMut env s i a2) := by
  constructor
  · simp only [partPtr]
    rw [hs]
    cases hp : partPtr env r o a <;> simp
  · simp only [partPtrMut]
    rw [hs]
    cases hp : partPtrMut env r o a <;> simp

theorem c6_nested_resolution_witness :
    partFieldRec env1 (Part.base 0) = some 1 ∧
    (partPtr env1 0 (Part.nested (Part.base 0) (Part.base 1)) [] =
      (partPtr env1 0 (Part.base 0) []).bind (fun a2 => partPtr env1 1 (Part.base 1) a2) ∧
    partPtrMut env1 0 (Part.nested (Part.base 0) (Part.base 1)) [] =
      (partPtrMut env1 0 (Part.base 0) []).bind
        (fun a2 => partPtrMut env1 1 (Part.base 1) a2)) :=
  ⟨by decide, c6_nested_resolution env1 0 (Part.base 0) (Part.base 1) 1 [] (by decide)⟩

theorem capParts_wrap (m : Mode) (l : List Part) :
    capParts (l.map (fun p => (p, m))) = l := by
  induction l with
  | nil => rfl
  | cons p l ih =>
    simp only [List.map_cons, capParts_cons, ih]

theorem foldl_wrap (m : Mode) : ∀ (ds : List Part) (acc : CapList),
    ds.foldl (fun acc p => (p, m) :: acc) acc =
      ds.reverse.map (fun p => (p, m)) ++ acc := by
  intro ds
  induction ds with
  | nil => intro acc; simp
  | cons p ds ih =>
    intro acc
    rw [List.foldl_cons, ih]
    simp

/-- C7: the derive's conversion entry points build the maximal handle: one
entry per declared part (struct-level abstract parts, then field parts),
every entry `Mut` when converting `&mut T` and `Const` when converting `&T`,
and the entries carry the declared parts in declaration order — the wrapping
starts at `Ref`, so the head of the list (the outermost wrapper) is the last
declared part and the list is the reverse of declaration order. -/
theorem c7_into_ref (absParts typedParts : List Part) :
    (intoRefMutCaps absParts typedParts).length = (absParts ++ typedParts).length ∧
    (intoRefConstCaps absParts typedParts).length = (absParts ++ typedParts).length ∧
    (∀ e ∈ intoRefMutCaps absParts typedParts, e.2 = Mode.Mut) ∧
    (∀ e ∈ intoRefConstCaps absParts typedParts, e.2 = Mode.Const) ∧
    capParts (intoRefMutCaps absParts typedParts) = (absParts ++ typedParts).reverse ∧
    capParts (intoRefConstCaps absParts typedParts) = (absParts ++ typedParts).reverse := by
  have hm : intoRefMutCaps absParts typedParts =
      (absParts ++ typedParts).reverse.map (fun p => (p, Mode.Mut)) := by
    rw [intoRefMutCaps, foldl_wrap]
    simp
  have hc : intoRefConstCaps absParts typedParts =
      (absParts ++ typedParts).reverse.map (fun p => (p, Mode.Const)) := by
    rw [intoRefConstCaps, foldl_wrap]
    simp
  refine ⟨?_, ?_, ?_, ?_, ?_, ?_⟩
  · rw [hm]; simp; omega
  · rw [hc]; simp; omega
  · rw [hm]
    intro e he
    obtain ⟨q, _, rfl⟩ := List.mem_map.mp he
    rfl
  · rw [hc]
    intro e he
    obtain ⟨q, _, rfl⟩ := List.mem_map.mp he
    rfl
  · rw [hm, capParts_wrap]
  · rw [hc, capParts_wrap]

theorem partPtr_abstract (env : Env) :
    ∀ (p : Part) (r : Nat) (a : Addr),
      isAbstractP env p = true → partPtr env r p a = none := by
  intro p
  induction p with
  | base n =>
    intro r a hab
    simp only [isAbstractP] at hab
    simp only [partPtr]
    cases hk : env.partKind n
    · rfl
    · rw [hk] at hab
      simp at hab
  | nested o i iho ihi =>
    intro r a hab
    simp only [isAbstractP] at hab
    simp only [partPtr]
    cases hf : partFieldRec env o
    · rfl
    · cases hp : partPtr env r o a
      · rfl
      · exact ihi _ _ hab

theorem partPtrMut_abstract (env : Env) :
    ∀ (p : Part) (r : Nat) (a : Addr),
      isAbstractP env p = true → partPtrMut env r p a = none := by
  intro p
  induction p with
  | base n =>
    intro r a hab
    simp only [isAbstractP] at hab
    simp only [partPtrMut]
    cases hk : env.partKind n
    · rfl
    · rw [hk] at hab
      simp at hab
  | nested o i iho ihi =>
    intro r a hab
    simp only [isAbstractP] at hab
    simp only [partPtrMut]
    cases hf : partFieldRec env o
    · rfl
    · cases hp : partPtrMut env r o a
      · rfl
      · exact ihi _ _ hab

/-- C8: abstract (opaque) parts are bookkeeping only: an abstract-shaped part
held in a list can be narrowed shared and, when held `Mut`, exclusively, like
any entry, yet address resolution yields no address for it at any nesting
depth — the generated `part_ptr`/`part_ptr_mut` bodies are `unreachable!()`,
modeled as `none`, so no operation ever produces an address for it. -/
theorem c8_abstract_no_address (env : Env) (p : Part) (r : Nat) (a : Addr)
    (m : Mode) (H : CapList) (hab : isAbstractP env p = true)
    (hm : (p, m) ∈ H) :
    partPtr env r p a = none ∧
    partPtrMut env r p a = none ∧
    PluckConst env p H (downgradeFirst p H) ∧
    (m = Mode.Mut → ∃ rem, PluckMut env p H rem) := by
  refine ⟨partPtr_abstract env p r a hab, partPtrMut_abstract env p r a hab,
    pluckConst_exists hm, ?_⟩
  rintro rfl
  exact pluckMut_exists hm

theorem c8_abstract_no_address_witness :
    isAbstractP env1 (Part.base 2) = true ∧
    (Part.base 2, Mode.Mut) ∈ ([(Part.base 2, Mode.Mut)] : CapList) ∧
    partPtr env1 0 (Part.base 2) [] = none ∧
    PluckConst env1 (Part.base 2) [(Part.base 2, Mode.Mut)]
      (downgradeFirst (Part.base 2) [(Part.base 2, Mode.Mut)]) := by
  have h := c8_abstract_no_address env1 (Part.base 2) 0 [] Mode.Mut
    [(Part.base 2, Mode.Mut)] (by decide) (by decide)
  exact ⟨by decide, by decide, h.1, h.2.2.1⟩

/-- C9: every handle is exactly one machine address and the capability algebra
never changes it: `get_raw` after `from_raw` returns the address unchanged,
and `borrow`, `split_borrow`, `split_part` and `split_part_mut` all return
handles built at the source handle's address — in particular the two
components of `split_borrow` carry the same address. -/
theorem c9_one_address (env : Env) (tgt : Nat) (p : Part)
    (caps H B rem remC remM : CapList) (a : Addr) (h : PRef H)
    (hsub : HasSubset env H B rem) (hplc : PluckConst env p H remC)
    (hplm : PluckMut env p H remM) :
    getRaw (fromRaw caps a) = a ∧
    getRaw (borrow h hsub) = getRaw h ∧
    getRaw (splitBorrow h hsub).1 = getRaw h ∧
    getRaw (splitBorrow h hsub).2 = getRaw h ∧
    getRaw (splitPartAcc env tgt p h hplc).2 = getRaw h ∧
    getRaw (splitPartMutAcc env tgt p h hplm).2 = getRaw h :=
  ⟨rfl, rfl, rfl, rfl, rfl, rfl⟩

theorem c9_one_address_witness :
    getRaw (fromRaw ([] : CapList) [3]) = [3] ∧
    getRaw (borrow (fromRaw [(Part.base 0, Mode.Mut)] [5])
      (@HasSubset.nil env0 [(Part.base 0, Mode.Mut)])) =
      getRaw (fromRaw [(Part.base 0, Mode.Mut)] [5]) ∧
    getRaw (splitBorrow (fromRaw [(Part.base 0, Mode.Mut)] [5])
      (@HasSubset.nil env0 [(Part.base 0, Mode.Mut)])).1 =
      getRaw (fromRaw [(Part.base 0, Mode.Mut)] [5]) ∧
    getRaw (splitBorrow (fromRaw [(Part.base 0, Mode.Mut)] [5])
      (@HasSubset.nil env0 [(Part.base 0, Mode.Mut)])).2 =
      getRaw (fromRaw [(Part.base 0, Mode.Mut)] [5]) ∧
    getRaw (splitPartAcc env0 0 (Part.base 0) (fromRaw [(Part.base 0, Mode.Mut)] [5])
      (PluckConst.hereMut (Part.base 0) [])).2 =
      getRaw (fromRaw [(Part.base 0, Mode.Mut)] [5]) ∧
    getRaw (splitPartMutAcc env0 0 (Part.base 0) (fromRaw [(Part.base 0, Mode.Mut)] [5])
      (PluckMut.here (Part.base 0) [])).2 =
      getRaw (fromRaw [(Part.base 0, Mode.Mut)] [5]) :=
  c9_one_address env0 0 (Part.base 0) [] [(Part.base 0, Mode.Mut)] []
    [(Part.base 0, Mode.Mut)] [(Part.base 0, Mode.Const)] [] [3]
    (fromRaw [(Part.base 0, Mode.Mut)] [5])
    (HasSubset.nil _) (PluckConst.hereMut _ _) (PluckMut.here _ _)

/-- C10: every splitting operation agrees with its non-splitting counterpart:
`split_borrow`'s first component is the handle `borrow` returns,
`split_part`'s (resp. `split_part_mut`'s) first component is the reference
`part` (resp. `part_mut`) returns, and the split variants differ only by the
additional remainder handle constructed at the same raw address. -/
theorem c10_split_agrees (env : Env) (tgt : Nat) (p : Part)
    (H B rem remC remM : CapList) (h : PRef H)
    (hsub : HasSubset env H B rem) (hplc : PluckConst env p H remC)
    (hplm : PluckMut env p H remM) :
    (splitBorrow h hsub).1 = borrow h hsub ∧
    (splitBorrow h hsub).2 = fromRaw rem (getRaw h) ∧
    (splitPartAcc env tgt p h hplc).1 = partAcc env tgt p h hplc ∧
    (splitPartAcc env tgt p h hplc).2 = fromRaw remC (getRaw h) ∧
    (splitPartMutAcc env tgt p h hplm).1 = partMutAcc env tgt p h hplm ∧
    (splitPartMutAcc env tgt p h hplm).2 = fromRaw remM (getRaw h) :=
  ⟨rfl, rfl, rfl, rfl, rfl, rfl⟩

theorem c10_split_agrees_witness :
    (splitBorrow (fromRaw [(Part.base 0, Mode.Mut)] [5])
      (@HasSubset.nil env0 [(Part.base 0, Mode.Mut)])).1 =
      borrow (fromRaw [(Part.base 0, Mode.Mut)] [5])
        (@HasSubset.nil env0 [(Part.base 0, Mode.Mut)]) ∧
    (splitBorrow (fromRaw [(Part.base 0, Mode.Mut)] [5])
      (@HasSubset.nil env0 [(Part.base 0, Mode.Mut)])).2 =
      fromRaw [(Part.base 0, Mode.Mut)]
        (getRaw (fromRaw [(Part.base 0, Mode.Mut)] [5])) ∧
    (splitPartAcc env0 0 (Part.base 0) (fromRaw [(Part.base 0, Mode.Mut)] [5])
      (PluckConst.hereMut (Part.base 0) [])).1 =
      partAcc env0 0 (Part.base 0) (fromRaw [(Part.base 0, Mode.Mut)] [5])
        (PluckConst.hereMut (Part.base 0) []) ∧
    (splitPartAcc env0 0 (Part.base 0) (fromRaw [(Part.base 0, Mode.Mut)] [5])
      (PluckConst.hereMut (Part.base 0) [])).2 =
      fromRaw [(Part.base 0, Mode.Const)]
        (getRaw (fromRaw [(Part.base 0, Mode.Mut)] [5])) ∧
    (splitPartMutAcc env0 0 (Part.base 0) (fromRaw [(Part.base 0, Mode.Mut)] [5])
      (PluckMut.here (Part.base 0) [])).1 =
      partMutAcc env0 0 (Part.base 0) (fromRaw [(Part.base 0, Mode.Mut)] [5])
        (PluckMut.here (Part.base 0) []) ∧
    (splitPartMutAcc env0 0 (Part.base 0) (fromRaw [(Part.base 0, Mode.Mut)] [5])
      (PluckMut.here (Part.base 0) [])).2 =
      fromRaw [] (getRaw (fromRaw [(Part.base 0, Mode.Mut)] [5])) :=
  c10_split_agrees env0 0 (Part.base 0) [(Part.base 0, Mode.Mut)] []
    [(Part.base 0, Mode.Mut)] [(Part.base 0, Mode.Const)] []
    (fromRaw [(Part.base 0, Mode.Mut)] [5])
    (HasSubset.nil _) (PluckConst.hereMut _ _) (PluckMut.here _ _)

end PartRefLib
